import Mathlib

/-!
A shallow embedding of the write-coalescing segment index and the extent
metadata service of UnifyCR: `common/src/seg_tree.c` and
`server/src/unifycr_metadata.c`.

The red-black tree (`RB_INSERT`, `RB_NFIND`, `RB_REMOVE` of BSD `tree.h`)
is modelled by its in-order node list; `RB_INSERT` descends that order and
returns the first node comparing equal (for `compare_func`, equal means
overlapping), otherwise it inserts.  C `unsigned long` values are modelled
as `Nat` (the operations under study never wrap 2 ^ 64; where a wrap is
possible in C it is written with an explicit `% 2 ^ 64`).  `malloc` and
`calloc` outcomes are driven by an explicit allocation oracle: a list of
`Bool`s consumed one per allocation, the empty list meaning every
allocation succeeds.  The pthread locks are sequentially irrelevant and
are not modelled.
-/

namespace UnifyCR

/-- Node of `struct seg_tree_node`: an inclusive interval `[start, end]` of
logical file offsets together with the physical log pointer of its first
byte.  (`end` is a Lean keyword, hence the quoted field name.) -/
structure seg_tree_node where
  start : Nat
  «end» : Nat
  ptr : Nat
deriving Repr, DecidableEq

/-- `compare_func` of `seg_tree.c`: orders nodes by interval, treating
overlapping intervals as equal. -/
def compare_func (node1 node2 : seg_tree_node) : Int :=
  if node1.start > node2.«end» then 1
  else if node1.«end» < node2.start then -1
  else 0

/-- `struct seg_tree`: the in-order content of the red-black tree plus the
`count` and `max` bookkeeping fields (the rwlock is not modelled). -/
structure seg_tree where
  head : List seg_tree_node
  count : Nat
  max : Nat
deriving Repr, DecidableEq

/-- One `seg_tree_node_alloc` outcome drawn from the allocation oracle. -/
def alloc_step : List Bool → Bool × List Bool
  | [] => (true, [])
  | b :: rest => (b, rest)

/-- `RB_INSERT` on the in-order list: descend the order comparing with
`compare_func`; if a node comparing equal (i.e. overlapping) is met it is
returned and nothing is inserted, otherwise the new node is inserted and
`none` is returned. -/
def rb_insert (l : List seg_tree_node) (n : seg_tree_node) :
    Option seg_tree_node × List seg_tree_node :=
  match l with
  | [] => (none, [n])
  | x :: xs =>
    if compare_func n x = 1 then
      ((rb_insert xs n).1, x :: (rb_insert xs n).2)
    else if compare_func n x = -1 then
      (none, n :: x :: xs)
    else
      (some x, x :: xs)

/-- `RB_NFIND` on the in-order list: the least node that compares greater
than or equal to the probe. -/
def rb_nfind (l : List seg_tree_node) (n : seg_tree_node) :
    Option seg_tree_node :=
  l.find? (fun x => decide (compare_func n x ≤ 0))

/-- `get_non_overlapping_range` of `seg_tree.c`, with the two in-out
parameters `new_start`/`new_end` threaded explicitly: given the existing
range `[start1, end1]` and the inserted range `[start2, end2]`, report
whether the existing range is fully covered (`true`) or else produce the
first non-overlapping sub-range of `[start1, end1]`. -/
def get_non_overlapping_range (start1 end1 start2 end2 new_start new_end : Nat) :
    Bool × Nat × Nat :=
  if start1 ≥ start2 ∧ end1 ≤ end2 then
    (true, new_start, new_end)
  else if start1 < start2 then
    (false, start1, min end1 (start2 - 1))
  else if start1 > start2 ∧ end1 > end2 then
    (false, max start1 (end2 + 1), end1)
  else if start1 = start2 ∧ end1 > end2 then
    (false, end2 + 1, end1)
  else
    (false, new_start, new_end)

/-- Outcome of `seg_tree_add`: `ok`/`enomem` return the resulting tree and
the rest of the allocation oracle.  `null_insert` marks the code path
where the `remaining` allocation fails: the C code then tests the wrong
variable (`if (!resized)`) and passes the NULL `remaining` pointer to
`RB_INSERT`, which is undefined behaviour; the constructor records the
tree just before that call.  `nofuel` is the artefact of the fuelled
loop below and is proved unreachable. -/
inductive add_result where
  | ok (tree : seg_tree) (oracle : List Bool) : add_result
  | enomem (tree : seg_tree) (oracle : List Bool) : add_result
  | null_insert (tree : seg_tree) : add_result
  | nofuel : add_result
deriving Repr, DecidableEq

/-- The `while ((overlap = RB_INSERT(...)))` loop of `seg_tree_add`,
recursing on explicit fuel (`seg_tree_add` supplies fuel that is proved
sufficient).  On exit the node is in the tree but the trailing `count++`
and `max` update of the C code are still pending (they are applied by
`seg_tree_add`). -/
def seg_tree_add_loop (fuel start last ptr : Nat) (st : seg_tree)
    (new_start new_end : Nat) (oracle : List Bool) : add_result :=
  match fuel with
  | 0 => .nofuel
  | fuel + 1 =>
    match rb_insert st.head ⟨start, last, ptr⟩ with
    | (none, head) => .ok { st with head := head } oracle
    | (some overlap, _) =>
      match get_non_overlapping_range overlap.start overlap.«end» start last
          new_start new_end with
      | (true, ns, ne) =>
        seg_tree_add_loop fuel start last ptr
          { st with head := st.head.erase overlap, count := st.count - 1 }
          ns ne oracle
      | (false, ns, ne) =>
        match alloc_step oracle with
        | (false, oracle) => .enomem st oracle
        | (true, oracle) =>
          let resized : seg_tree_node :=
            ⟨ns, ne, overlap.ptr + (ns - overlap.start)⟩
          let head := (rb_insert (st.head.erase overlap) resized).2
          if resized.«end» + 1 ≥ overlap.start ∧
              resized.«end» + 1 ≤ overlap.«end» then
            match alloc_step oracle with
            | (false, _) => .null_insert { st with head := head }
            | (true, oracle) =>
              let remaining : seg_tree_node :=
                ⟨resized.«end» + 1, overlap.«end»,
                  overlap.ptr + (resized.«end» + 1 - overlap.start)⟩
              seg_tree_add_loop fuel start last ptr
                { st with head := (rb_insert head remaining).2,
                          count := st.count + 1 }
                ns ne oracle
          else
            seg_tree_add_loop fuel start last ptr { st with head := head }
              ns ne oracle

/-- `seg_tree_add(seg_tree, start, end, ptr)`: allocate the new node, run
the coalescing loop, then perform the trailing `count++` and
`max = MAX(max, end)` of the C code.  The fuel `2 * length + 1` strictly
exceeds the loop measure (each pre-existing node is visited at most
twice), as proved below. -/
def seg_tree_add (st : seg_tree) (start last ptr : Nat)
    (oracle : List Bool) : add_result :=
  match alloc_step oracle with
  | (false, oracle) => .enomem st oracle
  | (true, oracle) =>
    match seg_tree_add_loop (2 * st.head.length + 1) start last ptr st
        0 0 oracle with
    | .ok st oracle =>
      .ok { st with count := st.count + 1, max := Nat.max st.max last } oracle
    | r => r

/-- `seg_tree_init`: the zeroed tree. -/
def seg_tree_init : seg_tree := ⟨[], 0, 0⟩

/-- `seg_tree_clear`: if the tree is empty it returns immediately,
otherwise it frees all nodes and zeroes `count` and `max`. -/
def seg_tree_clear (st : seg_tree) : seg_tree :=
  if st.head.isEmpty then st else ⟨[], 0, 0⟩

/-- `seg_tree_find_nolock(seg_tree, start, end)`: allocate a probe node
for the single byte `start` (returning NULL if that allocation fails),
`RB_NFIND` the least node not entirely below `start`, and return it when
it does not begin past `end`. -/
def seg_tree_find_nolock (st : seg_tree) (start last : Nat)
    (oracle : List Bool) : Option seg_tree_node :=
  match alloc_step oracle with
  | (false, _) => none
  | (true, _) =>
    match rb_nfind st.head ⟨start, start, 0⟩ with
    | some next => if next.start ≤ last then some next else none
    | none => none

/-- `seg_tree_count` accessor. -/
def seg_tree_count (st : seg_tree) : Nat := st.count

/-- `seg_tree_max` accessor. -/
def seg_tree_max (st : seg_tree) : Nat := st.max

/-- An operation on a segment tree, for stating invariants over operation
sequences.  `add` operations here run with the all-successful allocation
oracle (allocation failure is treated separately). -/
inductive seg_op where
  | add (start last ptr : Nat) : seg_op
  | clear : seg_op
deriving Repr, DecidableEq

/-- Apply one operation (adds use the all-successful oracle `[]`; the
fall-through arms are unreachable there). -/
def run_op (st : seg_tree) : seg_op → seg_tree
  | .add s e p =>
    match seg_tree_add st s e p [] with
    | .ok st _ => st
    | .enomem st _ => st
    | .null_insert st => st
    | .nofuel => st
  | .clear => seg_tree_clear st

/-- Run a sequence of operations from the freshly initialized tree. -/
def run_ops (ops : List seg_op) : seg_tree :=
  ops.foldl run_op seg_tree_init

/-- An `add` carries a well-formed segment: `start ≤ end` (the data-model
invariant of a Segment). -/
def op_wf : seg_op → Bool
  | .add s e _ => decide (s ≤ e)
  | .clear => true

/-- Two segments occupy disjoint offset ranges. -/
def disjoint_nodes (a b : seg_tree_node) : Prop :=
  a.«end» < b.start ∨ b.«end» < a.start

instance : DecidablePred fun p : seg_tree_node × seg_tree_node =>
    disjoint_nodes p.1 p.2 := by
  intro p; unfold disjoint_nodes; infer_instance

/-- The segment-tree representation invariant: the in-order list is
strictly ordered (hence pairwise disjoint) and every node is a
well-formed interval. -/
def tree_inv (l : List seg_tree_node) : Prop :=
  l.Pairwise (fun a b => a.«end» < b.start) ∧ ∀ n ∈ l, n.start ≤ n.«end»

instance (l : List seg_tree_node) : Decidable (tree_inv l) := by
  unfold tree_inv; infer_instance

/-- Does node `n` cover byte offset `x`? -/
def covers (x : Nat) (n : seg_tree_node) : Bool :=
  decide (n.start ≤ x ∧ x ≤ n.«end»)

/-- The physical offset node `n` assigns to byte `x`. -/
def node_val (x : Nat) (n : seg_tree_node) : Nat :=
  n.ptr + (x - n.start)

/-- The physical offset the tree assigns to logical byte `x`, through the
first covering node if any. -/
def tree_lookup (l : List seg_tree_node) (x : Nat) : Option Nat :=
  (l.find? (covers x)).map (node_val x)

/-- Contribution of one node to the termination measure of the
`seg_tree_add` loop for an insert of `[s, e]`: an overlapping node costs
one iteration, two when its left edge sticks out (it is then first split
and its right part reprocessed). -/
def seg_contrib (s e : Nat) (n : seg_tree_node) : Nat :=
  if n.start ≤ e ∧ s ≤ n.«end» then (if n.start < s then 2 else 1) else 0

/-- Termination measure of the `seg_tree_add` loop. -/
def overlap_measure (l : List seg_tree_node) (s e : Nat) : Nat :=
  (l.map (seg_contrib s e)).sum

/-- The specification of `find(start, end)`: the returned node is an
element of the tree intersecting `[start, end]` with the least start
offset; `none` means no element intersects the range. -/
def find_result_spec (st : seg_tree) (start last : Nat)
    (r : Option seg_tree_node) : Prop :=
  match r with
  | some n => n ∈ st.head ∧ (n.start ≤ last ∧ start ≤ n.«end») ∧
      ∀ m ∈ st.head, m.start ≤ last → start ≤ m.«end» → n.start ≤ m.start
  | none => ∀ m ∈ st.head, ¬(m.start ≤ last ∧ start ≤ m.«end»)

instance (st : seg_tree) (start last : Nat) (r : Option seg_tree_node) :
    Decidable (find_result_spec st start last r) := by
  unfold find_result_spec
  match r with
  | some n => infer_instance
  | none => infer_instance

/-- Post-condition of the `seg_tree_add` loop, relative to the state
`st0` the loop started from and the inserted node `⟨s, e, p⟩`: on success
the tree invariant holds, the new node is present, and the byte-to-log
mapping outside `[s, e]` is untouched; on `enomem` (and on the mid-split
state recorded by `null_insert`) the tree invariant still holds; `nofuel`
is unreachable. -/
def loop_post (s e p : Nat) (st0 : seg_tree) : add_result → Prop
  | .ok st _ => tree_inv st.head ∧ (⟨s, e, p⟩ : seg_tree_node) ∈ st.head ∧
      st.max = st0.max ∧
      ∀ x, ¬(s ≤ x ∧ x ≤ e) → tree_lookup st.head x = tree_lookup st0.head x
  | .enomem st _ => tree_inv st.head
  | .null_insert st => tree_inv st.head
  | .nofuel => False

/-- The tree invariant holds of the state recorded in an `add` outcome. -/
def add_result_inv : add_result → Prop
  | .ok st _ => tree_inv st.head
  | .enomem st _ => tree_inv st.head
  | .null_insert st => tree_inv st.head
  | .nofuel => True

/-- Key of the extent KV store (`unifycr_key_t`): `(fid, offset)`. -/
structure unifycr_key where
  fid : Nat
  offset : Nat
deriving Repr, DecidableEq

/-- A client read request (`shm_meta_t`): global file id, logical offset
and length. -/
structure shm_meta where
  src_fid : Nat
  offset : Nat
  length : Nat
deriving Repr, DecidableEq

/-- The get mode passed to `mdhimBGet`. -/
inductive bget_mode where
  | range_bget : bget_mode
  | eq_get : bget_mode
deriving Repr, DecidableEq

/-- The single `mdhimBGet` call issued by `meta_batch_get`: the probe
keys, the key count passed, and the mode. -/
structure bget_query where
  keys : List unifycr_key
  num_keys : Nat
  mode : bget_mode
deriving Repr, DecidableEq

/-- The probe keys built by the loop of `meta_batch_get`: request `i`
fills slots `2 i` and `2 i + 1` with `(fid, offset)` and
`(fid, offset + length - 1)`.  The `- 1` is `size_t` arithmetic, written
here with an explicit wrap-around `% 2 ^ 64` (field values are `u64`
values, i.e. below `2 ^ 64`). -/
def meta_batch_get_keys : List shm_meta → List unifycr_key
  | [] => []
  | req :: rest =>
    ⟨req.src_fid, req.offset⟩ ::
      ⟨req.src_fid, (req.offset + req.length + (2 ^ 64 - 1)) % 2 ^ 64⟩ ::
      meta_batch_get_keys rest

/-- The range get issued by `meta_batch_get` on a batch of requests:
`mdhimBGet(md, primary, keys, lens, 2 * req_cnt, MDHIM_RANGE_BGET)`. -/
def meta_batch_get_query (meta_reqs : List shm_meta) : bget_query :=
  ⟨meta_batch_get_keys meta_reqs, 2 * meta_reqs.length, .range_bget⟩

/-- One batch of an `mdhim_brm_t` put-reply chain; only the error slot is
relevant to the return-code computation. -/
structure mdhim_brm where
  error : Int
deriving Repr, DecidableEq

/-- Modelled from the spec: the numeric value of the `UNIFYCR_ERROR_MDHIM`
enum constant lives in `unifycr_const.h`, which is not among the sources;
only its being distinct from 0 (success) is relied upon. -/
def UNIFYCR_ERROR_MDHIM : Int := -1

/-- The initial `if (!brmp || brmp->error)` test of each batch put in
`meta_process_fsync`: a NULL reply chain, or a first batch whose error
code is non-zero (of either sign). -/
def chain_head_bad (chain : List mdhim_brm) : Bool :=
  match chain with
  | [] => true
  | b :: _ => decide (b.error ≠ 0)

/-- The `while (brmp)` release loop of `meta_process_fsync`: walk the
reply chain, collapsing the return code to `UNIFYCR_ERROR_MDHIM` (and
breaking) at the first batch whose error is negative. -/
def brm_scan (chain : List mdhim_brm) (ret : Int) : Int :=
  match chain with
  | [] => ret
  | b :: rest => if b.error < 0 then UNIFYCR_ERROR_MDHIM else brm_scan rest ret

/-- The return code of `meta_process_fsync` as a function of the two
`mdhimBPut` reply chains (extent puts, then file-attribute puts); the
key-building from client shared memory does not influence the return
code.  `ret` starts at 0 and is only ever overwritten with
`UNIFYCR_ERROR_MDHIM`, mirroring the C control flow. -/
def meta_process_fsync_ret (extent_chain fattr_chain : List mdhim_brm) : Int :=
  let ret : Int := 0
  let ret := if chain_head_bad extent_chain then UNIFYCR_ERROR_MDHIM else ret
  let ret := brm_scan extent_chain ret
  let ret := if chain_head_bad fattr_chain then UNIFYCR_ERROR_MDHIM else ret
  let ret := brm_scan fattr_chain ret
  ret

/-- Value of the extent KV store as read back by
`unifycr_get_file_extents` (`unifycr_val_t`). -/
structure unifycr_val where
  addr : Nat
  len : Nat
  delegator_id : Nat
  app_rank_id : Nat
deriving Repr, DecidableEq

/-- `unifycr_keyval_t`: one binding handed back to the caller. -/
structure unifycr_keyval where
  key : unifycr_key
  val : unifycr_val
deriving Repr, DecidableEq

/-- One batch of an `mdhim_bgetrm_t` get-reply chain. -/
structure mdhim_bgetrm where
  error : Int
  kvs : List (unifycr_key × unifycr_val)
deriving Repr, DecidableEq

/-- The copy loop of `unifycr_get_file_extents` for one batch.  The
target array is freshly `calloc`ed (so the `len` field stays 0) and the
field assignments happen in program order — in particular `addr` is
assigned twice, first from `val.addr` and then from `val.len`, so the
second assignment wins. -/
def extents_copy_batch (kvs : List (unifycr_key × unifycr_val)) :
    List unifycr_keyval :=
  kvs.map fun kv =>
    ⟨⟨kv.1.fid, kv.1.offset⟩,
      ⟨kv.2.len, 0, kv.2.delegator_id, kv.2.app_rank_id⟩⟩

/-- The `while (bgrmp)` loop of `unifycr_get_file_extents`: `rc`
collapses to `UNIFYCR_ERROR_MDHIM` on any batch with negative error
(without breaking), `tot_num` is incremented once per batch, and
`*keyval` is re-`calloc`ed and overwritten with each batch's bindings
(`none` models the caller's pointer never having been assigned). -/
def get_file_extents_loop (chain : List mdhim_bgetrm) (rc : Int)
    (tot_num : Nat) (keyval : Option (List unifycr_keyval)) :
    Int × Nat × Option (List unifycr_keyval) :=
  match chain with
  | [] => (rc, tot_num, keyval)
  | b :: rest =>
    get_file_extents_loop rest
      (if b.error < 0 then UNIFYCR_ERROR_MDHIM else rc)
      (tot_num + 1)
      (some (extents_copy_batch b.kvs))

/-- `unifycr_get_file_extents` as a function of the `mdhimBGet` reply
chain: returns `(rc, *num_values, *keyval)`. -/
def unifycr_get_file_extents (chain : List mdhim_bgetrm) :
    Int × Nat × Option (List unifycr_keyval) :=
  get_file_extents_loop chain 0 0 none

lemma meta_batch_get_keys_length (meta_reqs : List shm_meta) :
    (meta_batch_get_keys meta_reqs).length = 2 * meta_reqs.length := by
  induction meta_reqs with
  | nil => rfl
  | cons req rest ih => simp [meta_batch_get_keys, ih]; omega

lemma meta_batch_get_keys_get (meta_reqs : List shm_meta) (i : Nat)
    (req : shm_meta) (hreq : meta_reqs[i]? = some req) :
    (meta_batch_get_keys meta_reqs)[2 * i]? =
      some ⟨req.src_fid, req.offset⟩ ∧
    (meta_batch_get_keys meta_reqs)[2 * i + 1]? =
      some ⟨req.src_fid, (req.offset + req.length + (2 ^ 64 - 1)) % 2 ^ 64⟩ := by
  induction meta_reqs generalizing i with
  | nil => simp at hreq
  | cons a rest ih =>
    cases i with
    | zero =>
      simp only [List.getElem?_cons_zero, Option.some.injEq] at hreq
      subst hreq
      constructor
      · norm_num [meta_batch_get_keys]
      · norm_num [meta_batch_get_keys]
    | succ j =>
      simp only [List.getElem?_cons_succ] at hreq
      have h := ih j hreq
      have h2 : 2 * (j + 1) = 2 * j + 1 + 1 := by omega
      rw [h2]
      simpa [meta_batch_get_keys] using h

/-- C7: each of the `req_cnt` read requests processed by `meta_batch_get`
contributes exactly the two probe keys `(fid, offset)` and
`(fid, offset + length - 1)`, and a single `MDHIM_RANGE_BGET` get over
all `2 * req_cnt` keys is issued. -/
theorem meta_batch_get_two_probe_keys
    (meta_reqs : List shm_meta) (i : Nat) (req : shm_meta)
    (hreq : meta_reqs[i]? = some req)
    (hlen : 1 ≤ req.length)
    (hbound : req.offset + req.length ≤ 2 ^ 64) :
    (meta_batch_get_query meta_reqs).num_keys = 2 * meta_reqs.length ∧
    (meta_batch_get_query meta_reqs).mode = .range_bget ∧
    (meta_batch_get_query meta_reqs).keys.length = 2 * meta_reqs.length ∧
    (meta_batch_get_query meta_reqs).keys[2 * i]? =
      some ⟨req.src_fid, req.offset⟩ ∧
    (meta_batch_get_query meta_reqs).keys[2 * i + 1]? =
      some ⟨req.src_fid, req.offset + req.length - 1⟩ := by
  have h := meta_batch_get_keys_get meta_reqs i req hreq
  have hmod : (req.offset + req.length + (2 ^ 64 - 1)) % 2 ^ 64 =
      req.offset + req.length - 1 := by
    have hpow : (0:Nat) < 2 ^ 64 := Nat.pos_pow_of_pos 64 (by norm_num)
    have hsplit : req.offset + req.length + (2 ^ 64 - 1) =
        (req.offset + req.length - 1) + 2 ^ 64 := by omega
    rw [hsplit, Nat.add_mod_right, Nat.mod_eq_of_lt (by omega)]
  refine ⟨rfl, rfl, meta_batch_get_keys_length meta_reqs, h.1, ?_⟩
  show (meta_batch_get_keys meta_reqs)[2 * i + 1]? = _
  rw [h.2, hmod]

/-- Witness for C7 at the concrete request `[fid 1, offset 100, len 50]`:
the two probe keys are `(1, 100)` and `(1, 149)`. -/
theorem meta_batch_get_two_probe_keys_witness :
    (meta_batch_get_query [⟨1, 100, 50⟩]).keys[0]? = some ⟨1, 100⟩ ∧
    (meta_batch_get_query [⟨1, 100, 50⟩]).keys[1]? = some ⟨1, 149⟩ := by
  have h := meta_batch_get_two_probe_keys [⟨1, 100, 50⟩] 0 ⟨1, 100, 50⟩
    (by rfl) (by norm_num) (by norm_num)
  exact ⟨h.2.2.2.1, h.2.2.2.2⟩

lemma brm_scan_eq (chain : List mdhim_brm) (ret : Int) :
    brm_scan chain ret =
      if chain.any (fun b => decide (b.error < 0)) then UNIFYCR_ERROR_MDHIM
      else ret := by
  induction chain with
  | nil => simp [brm_scan]
  | cons b rest ih =>
    simp only [brm_scan, List.any_cons, Bool.or_eq_true, decide_eq_true_eq, ih]
    by_cases hb : b.error < 0 <;> simp [hb]

/-- Counterexample to C8 as stated: a batch reply with a positive error
code in a non-first batch does not cause `meta_process_fsync` to fail,
although that batch does not "report no error". -/
theorem meta_process_fsync_positive_error_ignored :
    meta_process_fsync_ret [⟨0⟩, ⟨1⟩] [⟨0⟩] = 0 ∧
    ∃ b ∈ ([⟨0⟩, ⟨1⟩] : List mdhim_brm), b.error ≠ 0 := by
  refine ⟨by decide, ⟨⟨1⟩, by simp, by decide⟩⟩

/-- C8 (amended): `meta_process_fsync` returns success iff both reply
chains are present, the first batch of each has error code 0, and no
batch of either chain has a negative error code (a positive error code
in a later batch is ignored); every failure is reported as the single
code `UNIFYCR_ERROR_MDHIM`. -/
theorem meta_process_fsync_ret_iff (c1 c2 : List mdhim_brm) :
    (meta_process_fsync_ret c1 c2 = 0 ↔
      (chain_head_bad c1 = false ∧ chain_head_bad c2 = false ∧
       (∀ b ∈ c1, 0 ≤ b.error) ∧ (∀ b ∈ c2, 0 ≤ b.error))) ∧
    (meta_process_fsync_ret c1 c2 = 0 ∨
     meta_process_fsync_ret c1 c2 = UNIFYCR_ERROR_MDHIM) := by
  have hany1 : ((c1.any fun b => decide (b.error < 0)) = false) ↔
      ∀ b ∈ c1, 0 ≤ b.error := by
    simp [List.any_eq_false, Int.not_lt]
  have hany2 : ((c2.any fun b => decide (b.error < 0)) = false) ↔
      ∀ b ∈ c2, 0 ≤ b.error := by
    simp [List.any_eq_false, Int.not_lt]
  have hne : UNIFYCR_ERROR_MDHIM ≠ 0 := by decide
  simp only [meta_process_fsync_ret, brm_scan_eq]
  rw [← hany1, ← hany2]
  rcases Bool.eq_false_or_eq_true (chain_head_bad c1) with hh1 | hh1 <;>
  rcases Bool.eq_false_or_eq_true (chain_head_bad c2) with hh2 | hh2 <;>
  rcases Bool.eq_false_or_eq_true (c1.any fun b => decide (b.error < 0))
    with ha1 | ha1 <;>
  rcases Bool.eq_false_or_eq_true (c2.any fun b => decide (b.error < 0))
    with ha2 | ha2 <;>
  simp [hh1, hh2, ha1, ha2, hne]

lemma get_file_extents_loop_spec (chain : List mdhim_bgetrm) :
    ∀ (rc : Int) (tot_num : Nat) (keyval : Option (List unifycr_keyval)),
    get_file_extents_loop chain rc tot_num keyval =
      ((if chain.any (fun b => decide (b.error < 0)) then UNIFYCR_ERROR_MDHIM
        else rc),
       tot_num + chain.length,
       (match chain.getLast? with
        | some b => some (extents_copy_batch b.kvs)
        | none => keyval)) := by
  induction chain with
  | nil => intro rc tot kv; simp [get_file_extents_loop]
  | cons b rest ih =>
    intro rc tot kv
    rw [get_file_extents_loop, ih]
    refine Prod.ext ?_ (Prod.ext ?_ ?_)
    · simp only [List.any_cons, Bool.or_eq_true, decide_eq_true_eq]
      by_cases hb : b.error < 0 <;>
        by_cases hr : rest.any (fun b => decide (b.error < 0)) <;>
        simp [hb, hr]
    · simp; omega
    · cases rest with
      | nil => simp
      | cons c r =>
        cases hlast : (c :: r).getLast? with
        | none => simp at hlast
        | some x => rw [List.getLast?_cons_cons, hlast]

/-- C10: `unifycr_get_file_extents` sets `*num_values` to the number of
reply batches consumed (not the number of key-value pairs), and each
batch's bindings overwrite the freshly allocated `*keyval` array, so only
the last batch's bindings reach the caller; concretely, a two-batch
reply carrying three pairs reports `num_values = 2` and returns only the
single binding of the second batch. -/
theorem unifycr_get_file_extents_last_batch_only :
    (∀ chain : List mdhim_bgetrm,
      (unifycr_get_file_extents chain).2.1 = chain.length ∧
      (unifycr_get_file_extents chain).2.2 =
        (match chain.getLast? with
         | some b => some (extents_copy_batch b.kvs)
         | none => none)) ∧
    (unifycr_get_file_extents
        [⟨0, [(⟨1, 0⟩, ⟨100, 8, 2, 3⟩), (⟨1, 8⟩, ⟨200, 8, 2, 3⟩)]⟩,
         ⟨0, [(⟨1, 16⟩, ⟨300, 8, 2, 3⟩)]⟩]).2.1 = 2 ∧
    (unifycr_get_file_extents
        [⟨0, [(⟨1, 0⟩, ⟨100, 8, 2, 3⟩), (⟨1, 8⟩, ⟨200, 8, 2, 3⟩)]⟩,
         ⟨0, [(⟨1, 16⟩, ⟨300, 8, 2, 3⟩)]⟩]).2.2 =
      some [⟨⟨1, 16⟩, ⟨8, 0, 2, 3⟩⟩] := by
  refine ⟨fun chain => ?_, by decide, by decide⟩
  unfold unifycr_get_file_extents
  rw [get_file_extents_loop_spec]
  exact ⟨by simp, rfl⟩

lemma compare_func_eq_zero (a b : seg_tree_node) :
    compare_func a b = 0 ↔ (a.start ≤ b.«end» ∧ b.start ≤ a.«end») := by
  unfold compare_func
  split_ifs with h1 h2
  · constructor
    · intro h; exact absurd h (by decide)
    · intro h; omega
  · constructor
    · intro h; exact absurd h (by decide)
    · intro h; omega
  · constructor
    · intro _; omega
    · intro _; rfl

lemma compare_func_eq_one (a b : seg_tree_node) :
    compare_func a b = 1 ↔ b.«end» < a.start := by
  unfold compare_func
  split_ifs with h1 h2
  · constructor <;> intro _ <;> [omega; rfl]
  · constructor
    · intro h; exact absurd h (by decide)
    · intro h; omega
  · constructor
    · intro h; exact absurd h (by decide)
    · intro h; omega

lemma compare_func_trichotomy (a b : seg_tree_node) :
    compare_func a b = 1 ∨ compare_func a b = -1 ∨ compare_func a b = 0 := by
  unfold compare_func
  split_ifs <;> simp

lemma compare_func_eq_neg_one (a b : seg_tree_node) :
    compare_func a b = -1 ↔ (a.start ≤ b.«end» ∧ a.«end» < b.start) := by
  unfold compare_func
  split_ifs with h1 h2
  · constructor
    · intro h; exact absurd h (by decide)
    · intro h; omega
  · constructor <;> intro _ <;> [omega; rfl]
  · constructor
    · intro h; exact absurd h (by decide)
    · intro h; omega

lemma disjoint_nodes_symm {a b : seg_tree_node} (h : disjoint_nodes a b) :
    disjoint_nodes b a := by
  unfold disjoint_nodes at *
  omega

lemma compare_func_ne_zero_of_disjoint {n m : seg_tree_node}
    (h : disjoint_nodes n m) : compare_func n m ≠ 0 := by
  intro hc
  rw [compare_func_eq_zero] at hc
  unfold disjoint_nodes at h
  omega

lemma pairwise_disjoint_of_ordered {l : List seg_tree_node}
    (h : l.Pairwise fun a b => a.«end» < b.start) :
    l.Pairwise disjoint_nodes :=
  h.imp fun hab => Or.inl hab

lemma mem_erase_disjoint {l : List seg_tree_node} {o : seg_tree_node}
    (hpd : l.Pairwise disjoint_nodes) (ho : o ∈ l) :
    ∀ m ∈ l.erase o, disjoint_nodes o m := by
  have hperm := List.perm_cons_erase ho
  have hp2 : List.Pairwise disjoint_nodes (o :: l.erase o) :=
    (hperm.pairwise_iff fun h => disjoint_nodes_symm h).1 hpd
  exact (List.pairwise_cons.1 hp2).1

lemma sub_interval_disjoint {o r m : seg_tree_node}
    (hsub : o.start ≤ r.start ∧ r.«end» ≤ o.«end»)
    (hd : disjoint_nodes o m) : disjoint_nodes r m := by
  unfold disjoint_nodes at *
  omega

lemma rb_insert_some {l : List seg_tree_node} {n m : seg_tree_node}
    {l' : List seg_tree_node} (h : rb_insert l n = (some m, l')) :
    l' = l ∧ m ∈ l ∧ compare_func n m = 0 := by
  induction l generalizing l' with
  | nil => simp [rb_insert] at h
  | cons x xs ih =>
    rw [rb_insert] at h
    split_ifs at h with h1 h2
    · rcases hr : rb_insert xs n with ⟨o, rest⟩
      rw [hr] at h
      simp only [Prod.mk.injEq] at h
      obtain ⟨ho, hl⟩ := h
      subst ho
      obtain ⟨hrest, hmem, hcmp⟩ := ih hr
      subst hrest
      exact ⟨hl.symm, List.mem_cons_of_mem x hmem, hcmp⟩
    · simp at h
    · simp only [Prod.mk.injEq, Option.some.injEq] at h
      obtain ⟨rfl, hl⟩ := h
      refine ⟨hl.symm, List.mem_cons_self x xs, ?_⟩
      rcases compare_func_trichotomy n x with hc | hc | hc
      · exact absurd hc h1
      · exact absurd hc h2
      · exact hc

lemma rb_insert_none_perm {l : List seg_tree_node} {n : seg_tree_node}
    (h : (rb_insert l n).1 = none) : (rb_insert l n).2.Perm (n :: l) := by
  induction l with
  | nil => simp [rb_insert]
  | cons x xs ih =>
    rw [rb_insert] at h ⊢
    split_ifs at h ⊢ with h1 h2
    · exact (List.Perm.cons x (ih h)).trans (List.Perm.swap n x xs)
    · exact List.Perm.refl _

lemma rb_insert_none_ordered {l : List seg_tree_node} {n : seg_tree_node}
    (hord : l.Pairwise fun a b => a.«end» < b.start)
    (hwf : ∀ m ∈ l, m.start ≤ m.«end»)
    (h : (rb_insert l n).1 = none) :
    (rb_insert l n).2.Pairwise fun a b => a.«end» < b.start := by
  induction l with
  | nil => simp [rb_insert]
  | cons x xs ih =>
    rw [List.pairwise_cons] at hord
    rw [rb_insert] at h ⊢
    split_ifs at h ⊢ with h1 h2
    · rw [List.pairwise_cons]
      refine ⟨?_, ih hord.2 (fun m hm => hwf m (List.mem_cons_of_mem x hm)) h⟩
      intro y hy
      rcases List.mem_cons.1 ((rb_insert_none_perm h).mem_iff.1 hy) with rfl | hy2
      · exact (compare_func_eq_one _ x).1 h1
      · exact hord.1 y hy2
    · rw [List.pairwise_cons]
      constructor
      · intro y hy
        rcases List.mem_cons.1 hy with rfl | hy2
        · exact ((compare_func_eq_neg_one _ _).1 h2).2
        · have hx := ((compare_func_eq_neg_one n x).1 h2).2
          have := hord.1 y hy2
          have := hwf x (List.mem_cons_self x xs)
          omega
      · exact List.pairwise_cons.2 hord

lemma rb_insert_fst_none_of_disjoint {l : List seg_tree_node}
    {n : seg_tree_node} (h : ∀ m ∈ l, compare_func n m ≠ 0) :
    (rb_insert l n).1 = none := by
  induction l with
  | nil => rfl
  | cons x xs ih =>
    unfold rb_insert
    split_ifs with h1 h2
    · exact ih fun m hm => h m (List.mem_cons_of_mem x hm)
    · rfl
    · rcases compare_func_trichotomy n x with hc | hc | hc
      · exact absurd hc h1
      · exact absurd hc h2
      · exact absurd hc (h x (List.mem_cons_self x xs))

lemma insert_sub_piece {l0 : List seg_tree_node} {r : seg_tree_node}
    (hord : l0.Pairwise fun a b => a.«end» < b.start)
    (hwf : ∀ m ∈ l0, m.start ≤ m.«end»)
    (hdis : ∀ m ∈ l0, disjoint_nodes r m)
    (hrwf : r.start ≤ r.«end») :
    tree_inv (rb_insert l0 r).2 ∧ (rb_insert l0 r).2.Perm (r :: l0) := by
  have hne : ∀ m ∈ l0, compare_func r m ≠ 0 :=
    fun m hm => compare_func_ne_zero_of_disjoint (hdis m hm)
  have h1 := rb_insert_fst_none_of_disjoint hne
  have hperm := rb_insert_none_perm h1
  have hord2 := rb_insert_none_ordered hord hwf h1
  refine ⟨⟨hord2, ?_⟩, hperm⟩
  intro m hm
  rcases List.mem_cons.1 (hperm.mem_iff.1 hm) with rfl | h
  · exact hrwf
  · exact hwf m h

lemma overlap_measure_perm {l₁ l₂ : List seg_tree_node} (h : l₁.Perm l₂)
    (s e : Nat) : overlap_measure l₁ s e = overlap_measure l₂ s e :=
  (h.map (seg_contrib s e)).sum_eq

lemma overlap_measure_cons (n : seg_tree_node) (l : List seg_tree_node)
    (s e : Nat) : overlap_measure (n :: l) s e =
      seg_contrib s e n + overlap_measure l s e := by
  simp [overlap_measure]

lemma overlap_measure_erase {l : List seg_tree_node} {o : seg_tree_node}
    (ho : o ∈ l) (s e : Nat) :
    overlap_measure l s e =
      seg_contrib s e o + overlap_measure (l.erase o) s e := by
  rw [overlap_measure_perm (List.perm_cons_erase ho), overlap_measure_cons]

lemma seg_contrib_le_two (s e : Nat) (n : seg_tree_node) :
    seg_contrib s e n ≤ 2 := by
  unfold seg_contrib
  split_ifs <;> omega

lemma overlap_measure_le (l : List seg_tree_node) (s e : Nat) :
    overlap_measure l s e ≤ 2 * l.length := by
  induction l with
  | nil => simp [overlap_measure]
  | cons x xs ih =>
    rw [overlap_measure_cons]
    have := seg_contrib_le_two s e x
    simp only [List.length_cons]
    omega

lemma gnor_cases (s1 e1 s e ns0 ne0 : Nat) (h1 : s ≤ e1) (h2 : s1 ≤ e) :
    (s ≤ s1 ∧ e1 ≤ e ∧
      get_non_overlapping_range s1 e1 s e ns0 ne0 = (true, ns0, ne0)) ∨
    (s1 < s ∧
      get_non_overlapping_range s1 e1 s e ns0 ne0 = (false, s1, s - 1)) ∨
    (s ≤ s1 ∧ e < e1 ∧
      get_non_overlapping_range s1 e1 s e ns0 ne0 = (false, e + 1, e1)) := by
  unfold get_non_overlapping_range
  split_ifs with ha hb hc hd
  · exact Or.inl ⟨ha.1, ha.2, rfl⟩
  · refine Or.inr (Or.inl ⟨hb, ?_⟩)
    rw [Nat.min_eq_right (by omega)]
  · refine Or.inr (Or.inr ⟨by omega, hc.2, ?_⟩)
    rw [Nat.max_eq_right (by omega)]
  · exact Or.inr (Or.inr ⟨by omega, hd.2, rfl⟩)
  · exfalso; omega

lemma covers_iff {x : Nat} {n : seg_tree_node} :
    covers x n = true ↔ (n.start ≤ x ∧ x ≤ n.«end») := by
  simp [covers]

lemma not_both_covers {a b : seg_tree_node} {x : Nat}
    (hd : disjoint_nodes a b) (ha : covers x a = true) :
    covers x b = false := by
  rcases Bool.eq_false_or_eq_true (covers x b) with h | h
  · exfalso
    rw [covers_iff] at ha h
    unfold disjoint_nodes at hd
    omega
  · exact h

lemma tree_lookup_some_of_mem {l : List seg_tree_node} {n : seg_tree_node}
    {x : Nat} (hpd : l.Pairwise disjoint_nodes) (hn : n ∈ l)
    (hc : covers x n = true) :
    tree_lookup l x = some (node_val x n) := by
  induction l with
  | nil => cases hn
  | cons a t ih =>
    rw [List.pairwise_cons] at hpd
    rcases List.mem_cons.1 hn with rfl | hmem
    · unfold tree_lookup
      rw [List.find?_cons_of_pos _ hc]
      rfl
    · have ha : covers x a = false :=
        not_both_covers (disjoint_nodes_symm (hpd.1 n hmem)) hc
      unfold tree_lookup
      rw [List.find?_cons_of_neg _ (by simp [ha])]
      exact ih hpd.2 hmem

lemma tree_lookup_none_iff {l : List seg_tree_node} {x : Nat} :
    tree_lookup l x = none ↔ ∀ n ∈ l, covers x n = false := by
  unfold tree_lookup
  rw [Option.map_eq_none', List.find?_eq_none]
  constructor
  · intro h n hn
    have := h n hn
    simpa using this
  · intro h n hn
    simp [h n hn]

lemma tree_lookup_some_elim {l : List seg_tree_node} {x : Nat} {v : Nat}
    (h : tree_lookup l x = some v) :
    ∃ n, n ∈ l ∧ covers x n = true ∧ v = node_val x n := by
  unfold tree_lookup at h
  rcases hf : l.find? (covers x) with _ | n
  · rw [hf] at h
    cases h
  · rw [hf] at h
    simp only [Option.map_some'] at h
    obtain rfl : node_val x n = v := by simpa using h
    exact ⟨n, List.mem_of_find?_eq_some hf, List.find?_some hf, rfl⟩

lemma tree_lookup_congr {l₁ l₂ : List seg_tree_node} {x : Nat}
    (h₁ : l₁.Pairwise disjoint_nodes) (h₂ : l₂.Pairwise disjoint_nodes)
    (f : ∀ n ∈ l₁, covers x n = true →
      ∃ m ∈ l₂, covers x m = true ∧ node_val x n = node_val x m)
    (g : ∀ m ∈ l₂, covers x m = true →
      ∃ n ∈ l₁, covers x n = true ∧ node_val x m = node_val x n) :
    tree_lookup l₁ x = tree_lookup l₂ x := by
  cases hv : tree_lookup l₁ x with
  | some v =>
    obtain ⟨n, hn, hc, rfl⟩ := tree_lookup_some_elim hv
    obtain ⟨m, hm, hcm, hval⟩ := f n hn hc
    rw [tree_lookup_some_of_mem h₂ hm hcm, hval]
  | none =>
    cases hv2 : tree_lookup l₂ x with
    | none => rfl
    | some w =>
      obtain ⟨m, hm, hcm, rfl⟩ := tree_lookup_some_elim hv2
      obtain ⟨n, hn, hcn, _⟩ := g m hm hcm
      rw [tree_lookup_none_iff] at hv
      rw [hv n hn] at hcn
      cases hcn

lemma seg_contrib_mk (s e a b c : Nat) :
    seg_contrib s e ⟨a, b, c⟩ =
      if a ≤ e ∧ s ≤ b then (if a < s then 2 else 1) else 0 := rfl

lemma covers_mk (x a b c : Nat) :
    covers x ⟨a, b, c⟩ = decide (a ≤ x ∧ x ≤ b) := rfl

lemma node_val_mk (x a b c : Nat) :
    node_val x ⟨a, b, c⟩ = c + (x - a) := rfl

lemma loop_post_mono {s e p : Nat} {st st0 : seg_tree} {r : add_result}
    (h : loop_post s e p st r)
    (hmax : st.max = st0.max)
    (hl : ∀ x, ¬(s ≤ x ∧ x ≤ e) →
      tree_lookup st.head x = tree_lookup st0.head x) :
    loop_post s e p st0 r := by
  cases r with
  | ok st1 o =>
    simp only [loop_post] at h ⊢
    exact ⟨h.1, h.2.1, h.2.2.1.trans hmax,
      fun x hx => (h.2.2.2 x hx).trans (hl x hx)⟩
  | enomem st1 o => exact h
  | null_insert st1 => exact h
  | nofuel => exact h

lemma countP_covers_eq_one {l : List seg_tree_node} {n : seg_tree_node}
    {x : Nat} (hpd : l.Pairwise disjoint_nodes) (hn : n ∈ l)
    (hc : covers x n = true) : l.countP (covers x) = 1 := by
  induction l with
  | nil => cases hn
  | cons a t ih =>
    rw [List.pairwise_cons] at hpd
    rcases List.mem_cons.1 hn with rfl | hmem
    · rw [List.countP_cons_of_pos _ _ hc]
      have ht : t.countP (covers x) = 0 := by
        rw [List.countP_eq_zero]
        intro m hm
        simp [not_both_covers (hpd.1 m hm) hc]
      omega
    · have ha : covers x a = false :=
        not_both_covers (disjoint_nodes_symm (hpd.1 n hmem)) hc
      rw [List.countP_cons_of_neg _ _ (by simp [ha])]
      exact ih hpd.2 hmem

lemma add_loop_spec (s e p : Nat) (hs : s ≤ e) :
    ∀ (fuel : Nat) (st : seg_tree) (ns0 ne0 : Nat) (oracle : List Bool),
    tree_inv st.head → overlap_measure st.head s e < fuel →
    loop_post s e p st (seg_tree_add_loop fuel s e p st ns0 ne0 oracle) := by
  intro fuel
  induction fuel with
  | zero =>
    intro st ns0 ne0 oracle _ hm
    exact absurd hm (Nat.not_lt_zero _)
  | succ fuel ih =>
    intro st ns0 ne0 oracle hinv hm
    rcases hins : rb_insert st.head ⟨s, e, p⟩ with ⟨o, l2⟩
    cases o with
    | none =>
      have h1 : (rb_insert st.head ⟨s, e, p⟩).1 = none := by rw [hins]
      have h2 : (rb_insert st.head ⟨s, e, p⟩).2 = l2 := by rw [hins]
      have hperm : l2.Perm (⟨s, e, p⟩ :: st.head) := h2 ▸ rb_insert_none_perm h1
      have hord2 : l2.Pairwise (fun a b => a.«end» < b.start) :=
        h2 ▸ rb_insert_none_ordered hinv.1 hinv.2 h1
      simp only [seg_tree_add_loop, hins, loop_post]
      refine ⟨⟨hord2, ?_⟩, hperm.mem_iff.2 (List.mem_cons_self _ _),
        True.intro, ?_⟩
      · intro m hmem
        rcases List.mem_cons.1 (hperm.mem_iff.1 hmem) with rfl | hmm
        · exact hs
        · exact hinv.2 m hmm
      · intro x hx
        refine tree_lookup_congr (pairwise_disjoint_of_ordered hord2)
          (pairwise_disjoint_of_ordered hinv.1) ?_ ?_
        · intro n hn hc
          rcases List.mem_cons.1 (hperm.mem_iff.1 hn) with rfl | hmm
          · simp only [covers, decide_eq_true_eq] at hc
            exact absurd hc hx
          · exact ⟨n, hmm, hc, rfl⟩
        · intro m hmem hc
          exact ⟨m, hperm.mem_iff.2 (List.mem_cons_of_mem _ hmem), hc, rfl⟩
    | some overlap =>
      obtain ⟨hl2, hoin, hcmp⟩ := rb_insert_some hins
      have hov := (compare_func_eq_zero _ _).1 hcmp
      have hov1 : s ≤ overlap.«end» := hov.1
      have hov2 : overlap.start ≤ e := hov.2
      have hpd := pairwise_disjoint_of_ordered hinv.1
      have hod : ∀ m ∈ st.head.erase overlap, disjoint_nodes overlap m :=
        mem_erase_disjoint hpd hoin
      have hord_e : (st.head.erase overlap).Pairwise
          (fun a b => a.«end» < b.start) :=
        hinv.1.sublist (List.erase_sublist _ _)
      have hwf_e : ∀ m ∈ st.head.erase overlap, m.start ≤ m.«end» :=
        fun m hmem => hinv.2 m (List.mem_of_mem_erase hmem)
      have hperm_e : st.head.Perm (overlap :: st.head.erase overlap) :=
        List.perm_cons_erase hoin
      have hMe : overlap_measure st.head s e =
          seg_contrib s e overlap + overlap_measure (st.head.erase overlap) s e :=
        overlap_measure_erase hoin s e
      rcases gnor_cases overlap.start overlap.«end» s e ns0 ne0 hov1 hov2 with
        ⟨hge, hle, hg⟩ | ⟨hlt, hg⟩ | ⟨hge, hlte, hg⟩
      · -- overlap fully covered by [s, e]: it is deleted
        simp only [seg_tree_add_loop, hins, hg]
        have hcontrib : 1 ≤ seg_contrib s e overlap := by
          unfold seg_contrib
          rw [if_pos ⟨hov2, hov1⟩]
          split_ifs <;> omega
        have hmA : overlap_measure (st.head.erase overlap) s e < fuel := by
          omega
        have hlkA : ∀ x, ¬(s ≤ x ∧ x ≤ e) →
            tree_lookup (st.head.erase overlap) x = tree_lookup st.head x := by
          intro x hx
          refine tree_lookup_congr
            (pairwise_disjoint_of_ordered hord_e) hpd ?_ ?_
          · intro n hn hc
            exact ⟨n, List.mem_of_mem_erase hn, hc, rfl⟩
          · intro m hmem hc
            rcases List.mem_cons.1 (hperm_e.mem_iff.1 hmem) with rfl | hmm
            · rw [covers_iff] at hc
              exact absurd ⟨by omega, by omega⟩ hx
            · exact ⟨m, hmm, hc, rfl⟩
        exact loop_post_mono
          (ih { st with head := st.head.erase overlap, count := st.count - 1 }
            ns0 ne0 oracle ⟨hord_e, hwf_e⟩ hmA) rfl hlkA
      · -- overlap sticks out on the left: split into resized + remaining
        simp only [seg_tree_add_loop, hins, hg]
        rcases hal : alloc_step oracle with ⟨ab, orest⟩
        cases ab with
        | false =>
          simp only [hal, loop_post]
          exact hinv
        | true =>
          simp only [hal]
          rw [if_pos (show s - 1 + 1 ≥ overlap.start ∧
            s - 1 + 1 ≤ overlap.«end» from ⟨by omega, by omega⟩)]
          have hdisR : ∀ m ∈ st.head.erase overlap,
              disjoint_nodes ⟨overlap.start, s - 1,
                overlap.ptr + (overlap.start - overlap.start)⟩ m := by
            intro m hmem
            refine sub_interval_disjoint ⟨?_, ?_⟩ (hod m hmem)
            · show overlap.start ≤ overlap.start
              omega
            · show s - 1 ≤ overlap.«end»
              omega
          obtain ⟨hinv2, hperm2⟩ := insert_sub_piece hord_e hwf_e hdisR
            (show overlap.start ≤ s - 1 by omega)
          rcases hal2 : alloc_step orest with ⟨ab2, orest2⟩
          cases ab2 with
          | false =>
            simp only [hal2, loop_post]
            exact hinv2
          | true =>
            simp only [hal2]
            have hdisM : ∀ m ∈ (rb_insert (st.head.erase overlap)
                ⟨overlap.start, s - 1,
                  overlap.ptr + (overlap.start - overlap.start)⟩).2,
                disjoint_nodes ⟨s - 1 + 1, overlap.«end»,
                  overlap.ptr + (s - 1 + 1 - overlap.start)⟩ m := by
              intro m hmem
              rcases List.mem_cons.1 (hperm2.mem_iff.1 hmem) with rfl | hmm
              · exact Or.inr (show s - 1 < s - 1 + 1 by omega)
              · refine sub_interval_disjoint ⟨?_, ?_⟩ (hod m hmm)
                · show overlap.start ≤ s - 1 + 1
                  omega
                · show overlap.«end» ≤ overlap.«end»
                  omega
            obtain ⟨hinv3, hperm3⟩ := insert_sub_piece hinv2.1 hinv2.2 hdisM
              (show s - 1 + 1 ≤ overlap.«end» by omega)
            have hmB : overlap_measure (rb_insert (rb_insert
                (st.head.erase overlap) ⟨overlap.start, s - 1,
                  overlap.ptr + (overlap.start - overlap.start)⟩).2
                ⟨s - 1 + 1, overlap.«end»,
                  overlap.ptr + (s - 1 + 1 - overlap.start)⟩).2 s e < fuel := by
              have e1 := overlap_measure_perm hperm3 s e
              have e2 := overlap_measure_perm hperm2 s e
              rw [overlap_measure_cons] at e1 e2
              have c1 : seg_contrib s e ⟨overlap.start, s - 1,
                  overlap.ptr + (overlap.start - overlap.start)⟩ = 0 := by
                rw [seg_contrib_mk]
                split_ifs <;> omega
              have c2 : seg_contrib s e ⟨s - 1 + 1, overlap.«end»,
                  overlap.ptr + (s - 1 + 1 - overlap.start)⟩ ≤ 1 := by
                rw [seg_contrib_mk]
                split_ifs <;> omega
              have c3 : seg_contrib s e overlap = 2 := by
                unfold seg_contrib
                rw [if_pos ⟨hov2, hov1⟩, if_pos hlt]
              omega
            have hlkB : ∀ x, ¬(s ≤ x ∧ x ≤ e) →
                tree_lookup (rb_insert (rb_insert
                  (st.head.erase overlap) ⟨overlap.start, s - 1,
                    overlap.ptr + (overlap.start - overlap.start)⟩).2
                  ⟨s - 1 + 1, overlap.«end»,
                    overlap.ptr + (s - 1 + 1 - overlap.start)⟩).2 x =
                  tree_lookup st.head x := by
              intro x hx
              refine tree_lookup_congr
                (pairwise_disjoint_of_ordered hinv3.1) hpd ?_ ?_
              · intro n hn hc
                rcases List.mem_cons.1 (hperm3.mem_iff.1 hn) with rfl | hn2
                · simp only [covers, decide_eq_true_eq] at hc
                  refine ⟨overlap, hoin, ?_, ?_⟩
                  · rw [covers_iff]
                    omega
                  · simp only [node_val]
                    omega
                · rcases List.mem_cons.1 (hperm2.mem_iff.1 hn2) with rfl | hn3
                  · simp only [covers, decide_eq_true_eq] at hc
                    refine ⟨overlap, hoin, ?_, ?_⟩
                    · rw [covers_iff]
                      omega
                    · simp only [node_val]
                      omega
                  · exact ⟨n, List.mem_of_mem_erase hn3, hc, rfl⟩
              · intro m hmem hc
                by_cases hmo : m = overlap
                · rw [hmo] at hc
                  rw [hmo]
                  rw [covers_iff] at hc
                  rcases Nat.lt_or_ge x s with hxs | hxs
                  · refine ⟨⟨overlap.start, s - 1,
                      overlap.ptr + (overlap.start - overlap.start)⟩,
                      hperm3.mem_iff.2 (List.mem_cons_of_mem _
                        (hperm2.mem_iff.2 (List.mem_cons_self _ _))), ?_, ?_⟩
                    · simp only [covers, decide_eq_true_eq]
                      omega
                    · simp only [node_val]
                      omega
                  · refine ⟨⟨s - 1 + 1, overlap.«end»,
                      overlap.ptr + (s - 1 + 1 - overlap.start)⟩,
                      hperm3.mem_iff.2 (List.mem_cons_self _ _), ?_, ?_⟩
                    · simp only [covers, decide_eq_true_eq]
                      omega
                    · simp only [node_val]
                      omega
                · have hmm : m ∈ st.head.erase overlap := by
                    rcases List.mem_cons.1 (hperm_e.mem_iff.1 hmem) with h | h
                    · exact absurd h hmo
                    · exact h
                  exact ⟨m, hperm3.mem_iff.2 (List.mem_cons_of_mem _
                    (hperm2.mem_iff.2 (List.mem_cons_of_mem _ hmm))), hc, rfl⟩
            exact loop_post_mono
              (ih { st with
                      head := (rb_insert (rb_insert
                        (st.head.erase overlap) ⟨overlap.start, s - 1,
                          overlap.ptr + (overlap.start - overlap.start)⟩).2
                        ⟨s - 1 + 1, overlap.«end»,
                          overlap.ptr + (s - 1 + 1 - overlap.start)⟩).2,
                      count := st.count + 1 }
                overlap.start (s - 1) orest2 hinv3 hmB) rfl hlkB
      · -- overlap sticks out on the right only: one resized piece
        simp only [seg_tree_add_loop, hins, hg]
        rcases hal : alloc_step oracle with ⟨ab, orest⟩
        cases ab with
        | false =>
          simp only [hal, loop_post]
          exact hinv
        | true =>
          simp only [hal]
          rw [if_neg (show ¬(overlap.«end» + 1 ≥ overlap.start ∧
            overlap.«end» + 1 ≤ overlap.«end») from fun hcond => by omega)]
          have hdisR : ∀ m ∈ st.head.erase overlap,
              disjoint_nodes ⟨e + 1, overlap.«end»,
                overlap.ptr + (e + 1 - overlap.start)⟩ m := by
            intro m hmem
            refine sub_interval_disjoint ⟨?_, ?_⟩ (hod m hmem)
            · show overlap.start ≤ e + 1
              omega
            · show overlap.«end» ≤ overlap.«end»
              omega
          obtain ⟨hinv2, hperm2⟩ := insert_sub_piece hord_e hwf_e hdisR
            (show e + 1 ≤ overlap.«end» by omega)
          have hmC : overlap_measure (rb_insert (st.head.erase overlap)
              ⟨e + 1, overlap.«end»,
                overlap.ptr + (e + 1 - overlap.start)⟩).2 s e < fuel := by
            have e2 := overlap_measure_perm hperm2 s e
            rw [overlap_measure_cons] at e2
            have c1 : seg_contrib s e ⟨e + 1, overlap.«end»,
                overlap.ptr + (e + 1 - overlap.start)⟩ = 0 := by
              rw [seg_contrib_mk]
              split_ifs <;> omega
            have c3 : 1 ≤ seg_contrib s e overlap := by
              unfold seg_contrib
              rw [if_pos ⟨hov2, hov1⟩]
              split_ifs <;> omega
            omega
          have hlkC : ∀ x, ¬(s ≤ x ∧ x ≤ e) →
              tree_lookup (rb_insert (st.head.erase overlap)
                ⟨e + 1, overlap.«end»,
                  overlap.ptr + (e + 1 - overlap.start)⟩).2 x =
                tree_lookup st.head x := by
            intro x hx
            refine tree_lookup_congr
              (pairwise_disjoint_of_ordered hinv2.1) hpd ?_ ?_
            · intro n hn hc
              rcases List.mem_cons.1 (hperm2.mem_iff.1 hn) with rfl | hn2
              · simp only [covers, decide_eq_true_eq] at hc
                refine ⟨overlap, hoin, ?_, ?_⟩
                · rw [covers_iff]
                  omega
                · simp only [node_val]
                  omega
              · exact ⟨n, List.mem_of_mem_erase hn2, hc, rfl⟩
            · intro m hmem hc
              by_cases hmo : m = overlap
              · rw [hmo] at hc
                rw [hmo]
                rw [covers_iff] at hc
                refine ⟨⟨e + 1, overlap.«end»,
                    overlap.ptr + (e + 1 - overlap.start)⟩,
                  hperm2.mem_iff.2 (List.mem_cons_self _ _), ?_, ?_⟩
                · simp only [covers, decide_eq_true_eq]
                  omega
                · simp only [node_val]
                  omega
              · have hmm : m ∈ st.head.erase overlap := by
                  rcases List.mem_cons.1 (hperm_e.mem_iff.1 hmem) with h | h
                  · exact absurd h hmo
                  · exact h
                exact ⟨m, hperm2.mem_iff.2 (List.mem_cons_of_mem _ hmm),
                  hc, rfl⟩
          exact loop_post_mono
            (ih { st with head := (rb_insert (st.head.erase overlap)
                ⟨e + 1, overlap.«end»,
                  overlap.ptr + (e + 1 - overlap.start)⟩).2 }
              (e + 1) overlap.«end» orest hinv2 hmC) rfl hlkC

lemma seg_tree_add_ok_spec {st : seg_tree} {s e p : Nat} {oracle : List Bool}
    {st' : seg_tree} {o' : List Bool}
    (hinv : tree_inv st.head) (hse : s ≤ e)
    (hadd : seg_tree_add st s e p oracle = .ok st' o') :
    tree_inv st'.head ∧ (⟨s, e, p⟩ : seg_tree_node) ∈ st'.head ∧
    st'.max = Nat.max st.max e ∧ 1 ≤ st'.count ∧
    ∀ x, ¬(s ≤ x ∧ x ≤ e) →
      tree_lookup st'.head x = tree_lookup st.head x := by
  unfold seg_tree_add at hadd
  rcases hal : alloc_step oracle with ⟨ab, o1⟩
  cases ab with
  | false =>
    simp only [hal] at hadd
    simp at hadd
  | true =>
    have hspec := add_loop_spec s e p hse (2 * st.head.length + 1) st 0 0 o1
      hinv (by have := overlap_measure_le st.head s e; omega)
    rcases hloop : seg_tree_add_loop (2 * st.head.length + 1) s e p st 0 0 o1
      with ⟨st2, o2⟩ | ⟨st2, o2⟩ | st2 | _ <;> rw [hloop] at hspec <;>
      simp only [hal, hloop] at hadd
    · simp only [add_result.ok.injEq] at hadd
      obtain ⟨hst, ho⟩ := hadd
      subst hst
      simp only [loop_post] at hspec
      refine ⟨hspec.1, hspec.2.1, ?_, ?_, hspec.2.2.2⟩
      · show st2.max.max e = st.max.max e
        rw [hspec.2.2.1]
      · show 1 ≤ st2.count + 1
        omega
    all_goals first
      | (simp at hadd)
      | (simp only [loop_post] at hspec; exact hspec.elim)

lemma seg_tree_add_enomem_spec {st : seg_tree} {s e p : Nat}
    {oracle : List Bool} {st' : seg_tree} {o' : List Bool}
    (hinv : tree_inv st.head) (hse : s ≤ e)
    (hadd : seg_tree_add st s e p oracle = .enomem st' o') :
    tree_inv st'.head := by
  unfold seg_tree_add at hadd
  rcases hal : alloc_step oracle with ⟨ab, o1⟩
  cases ab with
  | false =>
    simp only [hal, add_result.enomem.injEq] at hadd
    obtain ⟨hst, _⟩ := hadd
    subst hst
    exact hinv
  | true =>
    have hspec := add_loop_spec s e p hse (2 * st.head.length + 1) st 0 0 o1
      hinv (by have := overlap_measure_le st.head s e; omega)
    rcases hloop : seg_tree_add_loop (2 * st.head.length + 1) s e p st 0 0 o1
      with ⟨st2, o2⟩ | ⟨st2, o2⟩ | st2 | _ <;> rw [hloop] at hspec <;>
      simp only [hal, hloop] at hadd
    case mk.true.enomem =>
      simp only [add_result.enomem.injEq] at hadd
      obtain ⟨hst, _⟩ := hadd
      subst hst
      exact hspec
    all_goals first
      | (simp at hadd)
      | (simp only [loop_post] at hspec; exact hspec.elim)

lemma seg_tree_add_result_inv (st : seg_tree) (s e p : Nat)
    (oracle : List Bool) (hinv : tree_inv st.head) (hse : s ≤ e) :
    add_result_inv (seg_tree_add st s e p oracle) := by
  unfold seg_tree_add
  rcases hal : alloc_step oracle with ⟨ab, o1⟩
  cases ab with
  | false =>
    simp only [hal, add_result_inv]
    exact hinv
  | true =>
    have hspec := add_loop_spec s e p hse (2 * st.head.length + 1) st 0 0 o1
      hinv (by have := overlap_measure_le st.head s e; omega)
    rcases hloop : seg_tree_add_loop (2 * st.head.length + 1) s e p st 0 0 o1
      with ⟨st2, o2⟩ | ⟨st2, o2⟩ | st2 | _ <;> rw [hloop] at hspec <;>
      simp only [hal, hloop, add_result_inv]
    all_goals first
      | exact hspec.1
      | exact hspec
      | exact True.intro

lemma run_op_inv {st : seg_tree} (hinv : tree_inv st.head) (op : seg_op)
    (hwf : op_wf op = true) : tree_inv (run_op st op).head := by
  cases op with
  | add s e p =>
    have hs : s ≤ e := by simpa [op_wf] using hwf
    have h := seg_tree_add_result_inv st s e p [] hinv hs
    rcases hres : seg_tree_add st s e p [] with ⟨st2, o2⟩ | ⟨st2, o2⟩ | st2 | _
      <;> rw [hres] at h <;> simp only [add_result_inv] at h <;>
      simp only [run_op, hres]
    · exact h
    · exact h
    · exact h
    · exact hinv
  | clear =>
    unfold run_op seg_tree_clear
    split_ifs
    · exact hinv
    · exact ⟨List.Pairwise.nil, by simp⟩

lemma run_ops_inv (ops : List seg_op) :
    ∀ st : seg_tree, tree_inv st.head →
    (∀ op ∈ ops, op_wf op = true) →
    tree_inv (ops.foldl run_op st).head := by
  induction ops with
  | nil =>
    intro st h _
    exact h
  | cons op rest ih =>
    intro st h hwf
    simp only [List.foldl_cons]
    exact ih _ (run_op_inv h op (hwf op (List.mem_cons_self _ _)))
      (fun o ho => hwf o (List.mem_cons_of_mem _ ho))

lemma compare_func_mk (a b c : Nat) (n : seg_tree_node) :
    compare_func ⟨a, b, c⟩ n =
      if a > n.«end» then 1 else if b < n.start then -1 else 0 := rfl

lemma find?_min_start :
    ∀ (l : List seg_tree_node) (probe n : seg_tree_node),
    tree_inv l →
    l.find? (fun x => decide (compare_func probe x ≤ 0)) = some n →
    ∀ m ∈ l, compare_func probe m ≤ 0 → n.start ≤ m.start := by
  intro l
  induction l with
  | nil =>
    intro probe n _ hf
    simp at hf
  | cons a t ih =>
    intro probe n hinv hf m hm hcm
    obtain ⟨hord, hwf⟩ := hinv
    rw [List.pairwise_cons] at hord
    by_cases ha : compare_func probe a ≤ 0
    · rw [List.find?_cons_of_pos _ (by simpa using ha)] at hf
      have han : a = n := by simpa using hf
      subst han
      rcases List.mem_cons.1 hm with rfl | hm2
      · exact le_refl _
      · have h1 := hord.1 m hm2
        have h2 := hwf a (List.mem_cons_self _ _)
        omega
    · rw [List.find?_cons_of_neg _ (by simpa using ha)] at hf
      rcases List.mem_cons.1 hm with rfl | hm2
      · exact absurd hcm ha
      · exact ih probe n
          ⟨List.pairwise_cons.2 hord |>.tail,
            fun y hy => hwf y (List.mem_cons_of_mem _ hy)⟩
          hf m hm2 hcm

/-- Counterexample to C1 as stated: `seg_tree_add` accepts inverted
ranges (`start > end`), and a sequence of three adds starting from the
empty tree — `add(10, 2)`, `add(5, 6)`, `add(1, 9)` — leaves two
segments, `[1, 9]` and `[5, 6]`, that overlap: the red-black tree
descent of the third insert only compares against `[10, 2]` and never
meets `[5, 6]`. -/
theorem seg_tree_nonoverlap_counterexample :
    ¬ (run_ops [.add 10 2 0, .add 5 6 0, .add 1 9 0]).head.Pairwise
      (fun a b => a.«end» < b.start ∨ b.«end» < a.start) := by decide

/-- C1 (amended): for every sequence of `seg_tree_add` and
`seg_tree_clear` operations starting from the initialized empty tree,
in which every added segment is well-formed (`start ≤ end`), after every
operation the tree's segments are pairwise non-overlapping. -/
theorem seg_tree_nonoverlap_invariant (ops : List seg_op)
    (hwf : ∀ op ∈ ops, op_wf op = true) :
    (run_ops ops).head.Pairwise
      (fun a b => a.«end» < b.start ∨ b.«end» < a.start) := by
  have h := run_ops_inv ops seg_tree_init
    ⟨List.Pairwise.nil, by simp [seg_tree_init]⟩ hwf
  exact (pairwise_disjoint_of_ordered h.1).imp fun hd => hd

/-- Witness for C1 (amended) on the concrete sequence S1. -/
theorem seg_tree_nonoverlap_invariant_witness :
    (run_ops [seg_op.add 0 9 1000, seg_op.add 10 19 2000,
      seg_op.add 20 29 3000]).head.Pairwise
      (fun a b => a.«end» < b.start ∨ b.«end» < a.start) :=
  seg_tree_nonoverlap_invariant _ (by decide)

/-- C2: for every valid tree state and every successful
`seg_tree_add(s, e, p)`, afterwards every byte offset `x ∈ [s, e]` is
covered by exactly one segment and is mapped to physical offset
`p + (x - s)`; the newly added segment is retained intact and the
mapping outside `[s, e]` — the non-overlapping remainders of trimmed
segments — is unchanged. -/
theorem seg_tree_add_coverage_displacement
    (st : seg_tree) (s e p : Nat) (oracle : List Bool)
    (st' : seg_tree) (o' : List Bool)
    (hinv : tree_inv st.head) (hse : s ≤ e)
    (hadd : seg_tree_add st s e p oracle = .ok st' o') :
    (⟨s, e, p⟩ : seg_tree_node) ∈ st'.head ∧
    (∀ x, s ≤ x → x ≤ e →
      st'.head.countP (covers x) = 1 ∧
      tree_lookup st'.head x = some (p + (x - s))) ∧
    (∀ x, ¬(s ≤ x ∧ x ≤ e) →
      tree_lookup st'.head x = tree_lookup st.head x) := by
  obtain ⟨hinv', hmem, _, _, hlk⟩ := seg_tree_add_ok_spec hinv hse hadd
  refine ⟨hmem, ?_, hlk⟩
  intro x hx1 hx2
  have hc : covers x (⟨s, e, p⟩ : seg_tree_node) = true := by
    simp only [covers, decide_eq_true_eq]
    omega
  have hpd := pairwise_disjoint_of_ordered hinv'.1
  refine ⟨countP_covers_eq_one hpd hmem hc, ?_⟩
  rw [tree_lookup_some_of_mem hpd hmem hc]
  simp only [node_val]

/-- Witness for C2: the middle-overwrite scenario, checked at byte 50:
exactly one segment covers it and maps it to 5000 + (50 - 40) = 5010. -/
theorem seg_tree_add_coverage_displacement_witness :
    ([⟨0, 39, 1000⟩, ⟨40, 59, 5000⟩, ⟨60, 99, 1060⟩] :
      List seg_tree_node).countP (covers 50) = 1 ∧
    tree_lookup [⟨0, 39, 1000⟩, ⟨40, 59, 5000⟩, ⟨60, 99, 1060⟩] 50 =
      some (5000 + (50 - 40)) :=
  (seg_tree_add_coverage_displacement ⟨[⟨0, 99, 1000⟩], 1, 99⟩ 40 59 5000 []
    ⟨[⟨0, 39, 1000⟩, ⟨40, 59, 5000⟩, ⟨60, 99, 1060⟩], 3, 99⟩ []
    (by decide) (by decide) (by decide)).2.1 50 (by decide) (by decide)

/-- C3: starting from the empty tree, `add(0, 99, 1000)` followed by
`add(40, 59, 5000)` yields exactly the three segments `[0, 39, 1000]`,
`[40, 59, 5000]`, `[60, 99, 1060]` in ascending order, with `count`
equal to 3. -/
theorem seg_tree_middle_overwrite_split :
    (run_ops [.add 0 99 1000, .add 40 59 5000]).head =
      [⟨0, 39, 1000⟩, ⟨40, 59, 5000⟩, ⟨60, 99, 1060⟩] ∧
    seg_tree_count (run_ops [.add 0 99 1000, .add 40 59 5000]) = 3 := by
  decide

/-- Counterexample to C4 as stated: `count` is not monotone across adds —
after the S1 inserts `count` is 3, and the complete overwrite
`add(0, 29, 9000)` drops it to 1. -/
theorem seg_tree_count_not_monotone :
    seg_tree_count (run_ops [.add 0 9 1000, .add 10 19 2000,
      .add 20 29 3000]) = 3 ∧
    seg_tree_count (run_ops [.add 0 9 1000, .add 10 19 2000,
      .add 20 29 3000, .add 0 29 9000]) = 1 := by
  decide

/-- C4 (amended): across every successful `seg_tree_add` on a valid
tree, `max` is monotone non-decreasing, and `count` ends at least 1 (so
an add never resets it to zero); `count` itself is not monotone. -/
theorem seg_tree_max_monotone
    (st : seg_tree) (s e p : Nat) (oracle : List Bool)
    (st' : seg_tree) (o' : List Bool)
    (hinv : tree_inv st.head) (hse : s ≤ e)
    (hadd : seg_tree_add st s e p oracle = .ok st' o') :
    st.max ≤ st'.max ∧ 1 ≤ st'.count := by
  obtain ⟨_, _, hmax, hcnt, _⟩ := seg_tree_add_ok_spec hinv hse hadd
  refine ⟨?_, hcnt⟩
  rw [hmax]
  exact Nat.le_max_left _ _

/-- Witness for C4 (amended) on a concrete add. -/
theorem seg_tree_max_monotone_witness :
    (0 : Nat) ≤ seg_tree_max ⟨[⟨0, 9, 1000⟩], 1, 9⟩ ∧
    1 ≤ seg_tree_count ⟨[⟨0, 9, 1000⟩], 1, 9⟩ :=
  seg_tree_max_monotone ⟨[], 0, 0⟩ 0 9 1000 [] ⟨[⟨0, 9, 1000⟩], 1, 9⟩ []
    (by decide) (by decide) (by decide)

/-- Counterexample to C5 as stated: on the valid tree
`{[10, 12, 100], [25, 30, 200]}`, `seg_tree_add(5, 27, 999)` with the
second allocation (the `resized` split node) failing returns `ENOMEM`
with the tree equal to `{[25, 30, 200]}` — segment `[10, 12]` has
already been deleted and the new segment is absent, so the insert is
neither fully applied nor fully reverted. -/
theorem seg_tree_add_enomem_partial :
    tree_inv [⟨10, 12, 100⟩, ⟨25, 30, 200⟩] ∧
    seg_tree_add ⟨[⟨10, 12, 100⟩, ⟨25, 30, 200⟩], 2, 30⟩ 5 27 999
      [true, false] = .enomem ⟨[⟨25, 30, 200⟩], 1, 30⟩ [] ∧
    (⟨[⟨25, 30, 200⟩], 1, 30⟩ : seg_tree) ≠
      ⟨[⟨10, 12, 100⟩, ⟨25, 30, 200⟩], 2, 30⟩ ∧
    (⟨5, 27, 999⟩ : seg_tree_node) ∉
      ([⟨25, 30, 200⟩] : List seg_tree_node) := by
  decide

/-- C5 (amended): when `seg_tree_add` on a valid tree returns `ENOMEM`,
the resulting tree still satisfies the non-overlap invariant, though the
insert may have been partially applied.  (Failure of the second,
`remaining` allocation is mis-checked in the C code — `if (!resized)`
instead of `if (!remaining)` — and leads to inserting a NULL pointer
rather than returning an error; that path is the distinct `null_insert`
outcome, not an `ENOMEM` return.) -/
theorem seg_tree_add_enomem_nonoverlap
    (st : seg_tree) (s e p : Nat) (oracle : List Bool)
    (st' : seg_tree) (o' : List Bool)
    (hinv : tree_inv st.head) (hse : s ≤ e)
    (hadd : seg_tree_add st s e p oracle = .enomem st' o') :
    st'.head.Pairwise
      (fun a b => a.«end» < b.start ∨ b.«end» < a.start) := by
  have h := seg_tree_add_enomem_spec hinv hse hadd
  exact (pairwise_disjoint_of_ordered h.1).imp fun hd => hd

/-- Witness for C5 (amended) on the concrete partial-failure scenario. -/
theorem seg_tree_add_enomem_nonoverlap_witness :
    ([⟨25, 30, 200⟩] : List seg_tree_node).Pairwise
      (fun a b => a.«end» < b.start ∨ b.«end» < a.start) :=
  seg_tree_add_enomem_nonoverlap ⟨[⟨10, 12, 100⟩, ⟨25, 30, 200⟩], 2, 30⟩
    5 27 999 [true, false] ⟨[⟨25, 30, 200⟩], 1, 30⟩ []
    (by decide) (by decide) (by decide)

/-- C6: on every valid tree, when the probe allocation succeeds,
`seg_tree_find_nolock(start, end)` returns the tree segment with the
lowest start offset among those intersecting `[start, end]`, and `none`
when no segment intersects; in particular, after the middle-overwrite
scenario, `find(50, 70)` returns the `[40, 59, 5000]` segment and
`find(200, 300)` returns none. -/
theorem seg_tree_find_lowest_overlap :
    (∀ (st : seg_tree) (start last : Nat) (oracle : List Bool),
      tree_inv st.head → (alloc_step oracle).1 = true →
      find_result_spec st start last
        (seg_tree_find_nolock st start last oracle)) ∧
    seg_tree_find_nolock (run_ops [.add 0 99 1000, .add 40 59 5000])
      50 70 [] = some ⟨40, 59, 5000⟩ ∧
    seg_tree_find_nolock (run_ops [.add 0 99 1000, .add 40 59 5000])
      200 300 [] = none := by
  refine ⟨?_, by decide, by decide⟩
  intro st start last oracle hinv hal
  unfold seg_tree_find_nolock
  rcases halloc : alloc_step oracle with ⟨ab, o1⟩
  rw [halloc] at hal
  subst hal
  simp only [halloc]
  unfold rb_nfind
  rcases hnf : st.head.find?
      (fun x => decide (compare_func ⟨start, start, 0⟩ x ≤ 0)) with _ | next
  · simp only [find_result_spec]
    intro m hm hint
    have h := List.find?_eq_none.1 hnf m hm
    simp only [decide_eq_true_eq] at h
    rw [compare_func_mk] at h
    split_ifs at h with h1 h2
    · omega
    · exact absurd (by decide) h
    · exact absurd (by decide) h
  · have hmem := List.mem_of_find?_eq_some hnf
    have hpred := List.find?_some hnf
    simp only [decide_eq_true_eq] at hpred
    have hnext_end : start ≤ next.«end» := by
      rw [compare_func_mk] at hpred
      split_ifs at hpred with h1 h2
      · exact absurd hpred (by decide)
      · omega
      · omega
    show find_result_spec st start last
      (if next.start ≤ last then some next else none)
    split_ifs with hle
    · simp only [find_result_spec]
      refine ⟨hmem, ⟨hle, hnext_end⟩, ?_⟩
      intro m hm hm1 hm2
      refine find?_min_start st.head ⟨start, start, 0⟩ next hinv hnf m hm ?_
      rw [compare_func_mk]
      split_ifs with h1 h2
      · omega
      · decide
      · decide
    · simp only [find_result_spec]
      intro m hm hint
      have hcm : compare_func (⟨start, start, 0⟩ : seg_tree_node) m ≤ 0 := by
        rw [compare_func_mk]
        split_ifs with h1 h2
        · omega
        · decide
        · decide
      have := find?_min_start st.head ⟨start, start, 0⟩ next hinv hnf m hm hcm
      omega

/-- Witness for C6 at the middle-overwrite tree and query `[50, 70]`. -/
theorem seg_tree_find_lowest_overlap_witness :
    find_result_spec (run_ops [seg_op.add 0 99 1000, seg_op.add 40 59 5000])
      50 70 (seg_tree_find_nolock
        (run_ops [seg_op.add 0 99 1000, seg_op.add 40 59 5000]) 50 70 []) :=
  seg_tree_find_lowest_overlap.1 _ 50 70 [] (by decide) (by decide)

/-- C9: `seg_tree_find_nolock` allocates a temporary probe node and
returns NULL when that allocation fails, so on a tree containing the
segment `[40, 59]`, which intersects the queried range `[50, 70]`, find
still returns `none` under out-of-memory — the same result a genuine
no-overlap query on the empty tree produces, so the caller cannot tell
the two apart. -/
theorem seg_tree_find_oom_indistinguishable :
    seg_tree_find_nolock ⟨[⟨40, 59, 5000⟩], 1, 59⟩ 50 70 [false] = none ∧
    (∃ n ∈ ([⟨40, 59, 5000⟩] : List seg_tree_node),
      n.start ≤ 70 ∧ 50 ≤ n.«end») ∧
    seg_tree_find_nolock ⟨[], 0, 0⟩ 50 70 [] = none := by
  decide

end UnifyCR
